import Mathlib

/-
  Verification of the HOL_Queue ring buffer (src/Queue/HOL_Queue.h).

  The C header generates, per (TYPE, SIZE) instantiation, a struct

      typedef struct {
          TYPE buffer[SIZE];
          volatile size_t write_index;
          volatile size_t read_index;
          volatile size_t count;
      } queue_TYPE_SIZE_t;

  together with operations queue_initialize, queue_is_empty, queue_is_full,
  queue_count, queue_available_space, queue_push, queue_push_no_overwrite,
  queue_pull, queue_pull_multiple, queue_peek, queue_peek_ptr, queue_clear,
  and (for DECLARE_STRING_QUEUE) queue_push_with_string_support /
  queue_pull_with_string_support.

  We embed one generic instantiation: element type `α`, capacity `N`.
  `size_t` values are modelled as `Nat`; every arithmetic step of the C code
  (`% SIZE` advancing, `count++`, `count--`, `SIZE - count`) stays within
  `[0, SIZE]` on the paths the code executes, so no 2^64 wraparound is
  reachable and `Nat` is a faithful model there.

  NULL handles are modelled by `Option` at the query wrappers that the spec
  makes claims about (`is_empty`, `is_full`, `available_space`, and the
  string push helper); the core mutating operations are given on valid
  (non-NULL) states, with the non-handle parts of their NULL checks (such as
  `length == 0` in queue_pull_multiple) kept literally.
-/

set_option maxHeartbeats 1000000

namespace HOLQueue

/-- The status enumeration `queue_TYPE_SIZE_status_e` from DECLARE_QUEUE_STATUS:
`OK`, `ERROR_NULL_POINTER`, `ERROR_EMPTY`, `ERROR_FULL`, `ERROR_INVALID_LENGTH`. -/
inductive QueueStatus where
  | ok
  | errorNullPointer
  | errorEmpty
  | errorFull
  | errorInvalidLength
  deriving DecidableEq

/-- The generated struct `queue_TYPE_SIZE_t`: a SIZE-slot array, the write and
read indices, and the live-element count. `buffer` is a list whose length is
`N` in every reachable state (part of the invariant `Inv`). -/
structure Queue (α : Type) (N : Nat) where
  buffer : List α
  write_index : Nat
  read_index : Nat
  count : Nat
  deriving DecidableEq

variable {α : Type} {N : Nat}

/-- Embeds `queue_initialize_TYPE_SIZE` on a valid handle: resets both indices and
the count to 0 and returns OK. The buffer contents are not touched. -/
def queue_initialize_impl (self : Queue α N) : QueueStatus × Queue α N :=
  (QueueStatus.ok, { self with write_index := 0, read_index := 0, count := 0 })

/-- Embeds `queue_is_empty_TYPE_SIZE`: `return (self == NULL || self->count == 0);` -/
def queue_is_empty (self : Option (Queue α N)) : Bool :=
  match self with
  | none => true
  | some q => q.count == 0

/-- Embeds `queue_is_full_TYPE_SIZE`: `return (self != NULL && self->count >= SIZE);` -/
def queue_is_full (self : Option (Queue α N)) : Bool :=
  match self with
  | none => false
  | some q => decide (q.count ≥ N)

/-- Embeds `queue_count_TYPE_SIZE`: 0 for a NULL handle, otherwise `self->count`. -/
def queue_count (self : Option (Queue α N)) : Nat :=
  match self with
  | none => 0
  | some q => q.count

/-- Embeds `queue_available_space_TYPE_SIZE`: 0 for a NULL handle, otherwise
`SIZE - self->count` (size_t subtraction; on every reachable state
`count ≤ SIZE`, where it agrees with truncated `Nat` subtraction). -/
def queue_available_space (self : Option (Queue α N)) : Nat :=
  match self with
  | none => 0
  | some q => N - q.count

/-- Embeds `queue_push_TYPE_SIZE` (overwrite policy) on a valid handle:
if `count >= SIZE` the read index advances (oldest element discarded),
otherwise `count` is incremented; then `data` is written at `write_index`
and `write_index` advances mod SIZE. Always returns OK. -/
def queue_push (self : Queue α N) (data : α) : QueueStatus × Queue α N :=
  let q1 : Queue α N :=
    if self.count ≥ N then
      { self with read_index := (self.read_index + 1) % N }
    else
      { self with count := self.count + 1 }
  (QueueStatus.ok,
    { q1 with
      buffer := q1.buffer.set q1.write_index data,
      write_index := (q1.write_index + 1) % N })

/-- Embeds `queue_push_no_overwrite_TYPE_SIZE` on a valid handle: returns
ERROR_FULL without mutation when `count >= SIZE`; otherwise writes at
`write_index`, advances it mod SIZE and increments `count`. -/
def queue_push_no_overwrite (self : Queue α N) (data : α) : QueueStatus × Queue α N :=
  if self.count ≥ N then
    (QueueStatus.errorFull, self)
  else
    (QueueStatus.ok,
      { self with
        buffer := self.buffer.set self.write_index data,
        write_index := (self.write_index + 1) % N,
        count := self.count + 1 })

/-- Embeds `queue_pull_TYPE_SIZE` on a valid handle and non-NULL `data` out-pointer:
ERROR_EMPTY when `count == 0`; otherwise `*data = buffer[read_index]`, the
read index advances mod SIZE and `count` is decremented. The out-parameter is
modelled as the `Option α` component of the result. -/
def queue_pull [Inhabited α] (self : Queue α N) : QueueStatus × Option α × Queue α N :=
  if self.count = 0 then
    (QueueStatus.errorEmpty, none, self)
  else
    (QueueStatus.ok, some (self.buffer.getD self.read_index default),
      { self with read_index := (self.read_index + 1) % N, count := self.count - 1 })

/-- The `for(size_t i = 0; i < actual_length; i++)` loop body of
`queue_pull_multiple_TYPE_SIZE`: each iteration copies `buffer[read_index]`
to the next output slot, advances `read_index` mod SIZE and decrements
`count`. The collected outputs are returned in order. -/
def pullMultipleLoop [Inhabited α] (self : Queue α N) : Nat → List α × Queue α N
  | 0 => ([], self)
  | k + 1 =>
    let v := self.buffer.getD self.read_index default
    let q' := { self with read_index := (self.read_index + 1) % N, count := self.count - 1 }
    let r := pullMultipleLoop q' k
    (v :: r.1, r.2)

/-- Embeds `queue_pull_multiple_TYPE_SIZE` on a valid handle, non-NULL `data_out`
and non-NULL `read_count`: the C guard `if(!self || !data_out || length == 0)`
returns ERROR_NULL_POINTER, so with a valid handle and out-pointer the
`length == 0` case still yields ERROR_NULL_POINTER; ERROR_EMPTY with
`*read_count = 0` when `count == 0`; otherwise
`actual_length = (length > count) ? count : length` elements are moved by
the loop. Result: (status, values written to data_out, *read_count, new state). -/
def queue_pull_multiple [Inhabited α] (self : Queue α N) (length : Nat) :
    QueueStatus × List α × Nat × Queue α N :=
  if length = 0 then
    (QueueStatus.errorNullPointer, [], 0, self)
  else if self.count = 0 then
    (QueueStatus.errorEmpty, [], 0, self)
  else
    let actual_length := if length > self.count then self.count else length
    let r := pullMultipleLoop self actual_length
    (QueueStatus.ok, r.1, actual_length, r.2)

/-- Embeds `queue_peek_TYPE_SIZE` on a valid handle and out-pointer: ERROR_EMPTY
when `count == 0`, otherwise `*data = buffer[read_index]`. The C function
takes `const self` and mutates nothing, so no state is returned. -/
def queue_peek [Inhabited α] (self : Queue α N) : QueueStatus × Option α :=
  if self.count = 0 then
    (QueueStatus.errorEmpty, none)
  else
    (QueueStatus.ok, some (self.buffer.getD self.read_index default))

/-- Embeds `queue_clear_TYPE_SIZE` on a valid handle: resets both indices and the
count to 0; the buffer bytes stay. -/
def queue_clear (self : Queue α N) : Queue α N :=
  { self with write_index := 0, read_index := 0, count := 0 }

/-- Abstract view: the live elements in FIFO order — the `count` slots
starting at `read_index`, advancing circularly. -/
def Queue.toList [Inhabited α] (q : Queue α N) : List α :=
  (List.range q.count).map (fun i => q.buffer.getD ((q.read_index + i) % N) default)

/-- The reachable-state invariant: the storage has exactly `N` slots, the
count is bounded by the capacity, both indices are valid slot numbers, and
the write index sits `count` slots (circularly) after the read index. -/
def Queue.Inv (q : Queue α N) : Prop :=
  q.buffer.length = N ∧ q.count ≤ N ∧ q.read_index < N ∧ q.write_index < N ∧
    q.write_index = (q.read_index + q.count) % N

instance [Inhabited α] [DecidableEq α] (q : Queue α N) : Decidable q.Inv := by
  unfold Queue.Inv; infer_instance

/-- Helper: reading the slot just written. -/
theorem getD_set_self (l : List α) (i : Nat) (h : i < l.length) (v d : α) :
    (l.set i v).getD i d = v := by
  rw [List.getD_eq_getElem _ _ (by simpa using h)]
  simp

/-- Helper: writing one slot leaves every other slot unchanged. -/
theorem getD_set_ne (l : List α) (i j : Nat) (h : i ≠ j) (v d : α) :
    (l.set i v).getD j d = l.getD j d := by
  by_cases hj : j < l.length
  · rw [List.getD_eq_getElem _ _ (by simpa using hj), List.getD_eq_getElem _ _ hj]
    rw [List.getElem_set_ne h]
  · rw [List.getD_eq_default _ _ (by simpa using Nat.le_of_not_lt hj),
      List.getD_eq_default _ _ (Nat.le_of_not_lt hj)]

/-- Any state satisfying the invariant lives in a positive capacity. -/
theorem Queue.Inv.pos {q : Queue α N} (h : q.Inv) : 0 < N :=
  Nat.lt_of_le_of_lt (Nat.zero_le _) h.2.2.1

/-- The common read-step of `queue_pull` and of each `queue_pull_multiple`
loop iteration: advance `read_index` mod SIZE, decrement `count`. -/
def Queue.advance (q : Queue α N) : Queue α N :=
  { q with read_index := (q.read_index + 1) % N, count := q.count - 1 }

/-- Decomposition of the live contents: when the queue is nonempty, its FIFO
list is the slot at `read_index` followed by the contents after one read step. -/
theorem toList_cons [Inhabited α] (q : Queue α N) (hri : q.read_index < N)
    (hc : 0 < q.count) :
    q.toList = q.buffer.getD q.read_index default :: q.advance.toList := by
  unfold Queue.toList Queue.advance
  obtain ⟨k, hk⟩ : ∃ k, q.count = k + 1 := ⟨q.count - 1, by omega⟩
  simp only [hk, Nat.add_sub_cancel]
  rw [List.range_succ_eq_map, List.map_cons, List.map_map]
  congr 1
  · rw [Nat.add_zero, Nat.mod_eq_of_lt hri]
  · apply List.map_congr_left
    intro i _
    simp only [Function.comp_apply]
    congr 1
    rw [Nat.mod_add_mod]
    congr 1
    omega

/-- One read step preserves the invariant when the queue is nonempty. -/
theorem advance_Inv {q : Queue α N} (h : q.Inv) (hc : 0 < q.count) : q.advance.Inv := by
  obtain ⟨hbuf, hcnt, hri, hwi, hrel⟩ := h
  have hN : 0 < N := Nat.lt_of_le_of_lt (Nat.zero_le _) hri
  refine ⟨hbuf, by simp [Queue.advance]; omega, Nat.mod_lt _ hN, hwi, ?_⟩
  show q.write_index = ((q.read_index + 1) % N + (q.count - 1)) % N
  rw [Nat.mod_add_mod, hrel]
  congr 1
  omega

/-- Circular offsets from a fixed base are injective below the capacity. -/
theorem mod_shift_inj {ri i j M : Nat} (hi : i < M) (hj : j < M)
    (h : (ri + i) % M = (ri + j) % M) : i = j := by
  have h2 : Nat.ModEq M (ri + i) (ri + j) := h
  have h3 := Nat.ModEq.add_left_cancel' ri h2
  rwa [Nat.ModEq, Nat.mod_eq_of_lt hi, Nat.mod_eq_of_lt hj] at h3

/-- Lemma: `queue_push` on a non-full queue: returns OK, preserves the invariant,
appends the new value at the back of the FIFO contents, increments count. -/
theorem push_notFull [Inhabited α] {q : Queue α N} (data : α) (h : q.Inv)
    (hlt : q.count < N) :
    (queue_push q data).1 = QueueStatus.ok ∧
    (queue_push q data).2.Inv ∧
    (queue_push q data).2.toList = q.toList ++ [data] ∧
    (queue_push q data).2.count = q.count + 1 := by
  obtain ⟨hbuf, hcnt, hri, hwi, hrel⟩ := h
  have hN : 0 < N := Nat.lt_of_le_of_lt (Nat.zero_le _) hri
  have hstate : (queue_push q data).2 =
      { buffer := q.buffer.set q.write_index data,
        write_index := (q.write_index + 1) % N,
        read_index := q.read_index,
        count := q.count + 1 } := by
    simp only [queue_push]
    rw [if_neg (Nat.not_le.mpr hlt)]
  refine ⟨rfl, ?_, ?_, by rw [hstate]⟩
  · rw [hstate]
    refine ⟨by simpa using hbuf, by show q.count + 1 ≤ N; omega, hri,
      Nat.mod_lt _ hN, ?_⟩
    show (q.write_index + 1) % N = (q.read_index + (q.count + 1)) % N
    rw [hrel, Nat.mod_add_mod, Nat.add_assoc]
  · rw [hstate]
    show ((List.range (q.count + 1)).map fun i =>
        (q.buffer.set q.write_index data).getD ((q.read_index + i) % N) default) =
      q.toList ++ [data]
    rw [List.range_succ, List.map_append, List.map_singleton]
    congr 1
    · apply List.map_congr_left
      intro i hi
      rw [List.mem_range] at hi
      apply getD_set_ne
      rw [hrel]
      intro hcontra
      exact absurd (mod_shift_inj (Nat.lt_trans hi hlt) hlt hcontra.symm) (by omega)
    · rw [hrel, getD_set_self]
      rw [hbuf]
      exact Nat.mod_lt _ hN

/-- Lemma: `queue_pull` on a nonempty queue: returns OK together with the slot at
`read_index` (the head of the FIFO contents), and the new state is one read
step, whose contents are the tail; the invariant is preserved. -/
theorem pull_spec [Inhabited α] {q : Queue α N} (h : q.Inv) (hc : 0 < q.count) :
    queue_pull q = (QueueStatus.ok, some (q.buffer.getD q.read_index default), q.advance) ∧
    q.toList = q.buffer.getD q.read_index default :: q.advance.toList ∧
    q.advance.toList = q.toList.tail ∧ q.advance.Inv := by
  have hcons := toList_cons q h.2.2.1 hc
  refine ⟨?_, hcons, by rw [hcons, List.tail_cons], advance_Inv h hc⟩
  unfold queue_pull
  rw [if_neg (by omega)]
  rfl

/-- Lemma: `queue_push` on a full queue: returns OK, preserves the invariant, drops
the oldest element and appends the new one; count stays at the capacity. -/
theorem push_full [Inhabited α] {q : Queue α N} (data : α) (h : q.Inv)
    (he : q.count = N) :
    (queue_push q data).1 = QueueStatus.ok ∧
    (queue_push q data).2.Inv ∧
    (queue_push q data).2.toList = q.toList.tail ++ [data] ∧
    (queue_push q data).2.count = N := by
  have hN : 0 < N := h.pos
  have hc : 0 < q.count := by omega
  have hA : q.advance.Inv := advance_Inv h hc
  have hlt : q.advance.count < N := by
    show q.count - 1 < N
    omega
  have hwi : q.write_index = q.read_index := by
    have := h.2.2.2.2
    rw [he] at this
    rw [this, Nat.add_mod_right, Nat.mod_eq_of_lt h.2.2.1]
  have hkey : (queue_push q data).2 = (queue_push q.advance data).2 := by
    simp only [queue_push, Queue.advance]
    rw [if_pos (Nat.le_of_eq he.symm), if_neg (by omega : ¬ N ≤ q.count - 1)]
    simp only [Queue.mk.injEq]
    refine ⟨trivial, trivial, trivial, by omega⟩
  obtain ⟨_, hInv2, hto, hcnt⟩ := push_notFull data hA hlt
  have htail : q.advance.toList = q.toList.tail := by
    rw [toList_cons q h.2.2.1 hc, List.tail_cons]
  refine ⟨rfl, by rw [hkey]; exact hInv2, ?_, ?_⟩
  · rw [hkey, hto, htail]
  · rw [hkey, hcnt]
    show q.count - 1 + 1 = N
    omega

/-- Unfolding equation: one iteration of the bulk-pull loop is one read step. -/
theorem pullMultipleLoop_succ [Inhabited α] (q : Queue α N) (k : Nat) :
    pullMultipleLoop q (k + 1) =
      (q.buffer.getD q.read_index default :: (pullMultipleLoop q.advance k).1,
        (pullMultipleLoop q.advance k).2) := rfl

/-- The bulk-pull loop, run `k ≤ count` times on an invariant state, emits
the first `k` FIFO elements in order, leaves the remaining contents, keeps
the invariant, and lowers the count by `k` without touching the storage. -/
theorem pullMultipleLoop_spec [Inhabited α] :
    ∀ (k : Nat) (q : Queue α N), q.Inv → k ≤ q.count →
      (pullMultipleLoop q k).1 = q.toList.take k ∧
      (pullMultipleLoop q k).2.toList = q.toList.drop k ∧
      (pullMultipleLoop q k).2.Inv ∧
      (pullMultipleLoop q k).2.count = q.count - k
  | 0, q, h, _ => ⟨rfl, rfl, h, rfl⟩
  | k + 1, q, h, hk => by
    have hc : 0 < q.count := by omega
    have hcons := toList_cons q h.2.2.1 hc
    have hI : q.advance.Inv := advance_Inv h hc
    have hk' : k ≤ q.advance.count := by
      show k ≤ q.count - 1
      omega
    obtain ⟨ih1, ih2, ih3, ih4⟩ := pullMultipleLoop_spec k q.advance hI hk'
    rw [pullMultipleLoop_succ, hcons]
    refine ⟨?_, ?_, ih3, ?_⟩
    · show q.buffer.getD q.read_index default :: (pullMultipleLoop q.advance k).1 =
        (q.buffer.getD q.read_index default :: q.advance.toList).take (k + 1)
      rw [List.take_succ_cons, ih1]
    · show (pullMultipleLoop q.advance k).2.toList =
        (q.buffer.getD q.read_index default :: q.advance.toList).drop (k + 1)
      rw [List.drop_succ_cons, ih2]
    · rw [ih4]
      show q.count - 1 - k = q.count - (k + 1)
      omega

/-- Lemma: `queue_push_no_overwrite` on a non-full queue behaves exactly like the
non-overwrite branch of `queue_push`. -/
theorem push_no_overwrite_notFull [Inhabited α] {q : Queue α N} (data : α)
    (hlt : q.count < N) :
    queue_push_no_overwrite q data = queue_push q data := by
  unfold queue_push_no_overwrite queue_push
  rw [if_neg (Nat.not_le.mpr hlt), if_neg (Nat.not_le.mpr hlt)]

/-- Pushing a whole list of values, front to back, with `queue_push`. -/
def pushAll (q : Queue α N) : List α → Queue α N
  | [] => q
  | v :: vs => pushAll (queue_push q v).2 vs

theorem pushAll_append (q : Queue α N) (xs ys : List α) :
    pushAll q (xs ++ ys) = pushAll (pushAll q xs) ys := by
  induction xs generalizing q with
  | nil => rfl
  | cons x xs ih => simp [pushAll, ih]

/-- Pushing `vs` without overflow appends `vs` to the FIFO contents. -/
theorem pushAll_spec [Inhabited α] :
    ∀ (vs : List α) (q : Queue α N), q.Inv → q.count + vs.length ≤ N →
      (pushAll q vs).Inv ∧ (pushAll q vs).toList = q.toList ++ vs ∧
      (pushAll q vs).count = q.count + vs.length
  | [], q, h, _ => by simp [pushAll, h]
  | v :: vs, q, h, hlen => by
    have hlt : q.count < N := by simp at hlen; omega
    obtain ⟨_, hI, hto, hcnt⟩ := push_notFull v h hlt
    have hlen' : (queue_push q v).2.count + vs.length ≤ N := by
      rw [hcnt]; simp at hlen ⊢; omega
    obtain ⟨ih1, ih2, ih3⟩ := pushAll_spec vs (queue_push q v).2 hI hlen'
    refine ⟨ih1, ?_, ?_⟩
    · show (pushAll (queue_push q v).2 vs).toList = q.toList ++ v :: vs
      rw [ih2, hto, List.append_assoc, List.singleton_append]
    · show (pushAll (queue_push q v).2 vs).count = q.count + (v :: vs).length
      rw [ih3, hcnt]
      simp
      omega

/-- Repeatedly calling `queue_pull`, collecting the returned values while the
status is OK; `fuel` bounds the number of calls. -/
def drain [Inhabited α] (q : Queue α N) : Nat → List α
  | 0 => []
  | fuel + 1 =>
    match queue_pull q with
    | (QueueStatus.ok, some v, q') => v :: drain q' fuel
    | _ => []

/-- With fuel at least `count`, draining returns exactly the FIFO contents. -/
theorem drain_eq_toList [Inhabited α] :
    ∀ (fuel : Nat) (q : Queue α N), q.Inv → q.count ≤ fuel →
      drain q fuel = q.toList
  | 0, q, h, hf => by
    have : q.count = 0 := by omega
    simp [drain, Queue.toList, this]
  | fuel + 1, q, h, hf => by
    by_cases hc : q.count = 0
    · have hpull : queue_pull q = (QueueStatus.errorEmpty, none, q) := by
        unfold queue_pull
        rw [if_pos hc]
      simp [drain, hpull, Queue.toList, hc]
    · have hcpos : 0 < q.count := by omega
      obtain ⟨hpull, hcons, _, hI⟩ := pull_spec h hcpos
      have hf' : q.advance.count ≤ fuel := by
        show q.count - 1 ≤ fuel
        omega
      show drain q (fuel + 1) = q.toList
      unfold drain
      rw [hpull, hcons]
      show q.buffer.getD q.read_index default :: drain q.advance fuel =
        q.buffer.getD q.read_index default :: q.advance.toList
      rw [drain_eq_toList fuel q.advance hI hf']

/-- The operations of claim C5, as an alphabet of events. -/
inductive QueueOp (α : Type) where
  | initializeOp
  | pushOp (v : α)
  | pushNoOverwriteOp (v : α)
  | pullOp
  | pullMultipleOp (len : Nat)
  | peekOp
  | clearOp

/-- The state after one operation: the state component of the corresponding
embedded function (`queue_peek` takes a const handle and has no state
component, so the state is unchanged). -/
def applyOp [Inhabited α] (q : Queue α N) : QueueOp α → Queue α N
  | QueueOp.initializeOp => (queue_initialize_impl q).2
  | QueueOp.pushOp v => (queue_push q v).2
  | QueueOp.pushNoOverwriteOp v => (queue_push_no_overwrite q v).2
  | QueueOp.pullOp => (queue_pull q).2.2
  | QueueOp.pullMultipleOp len => (queue_pull_multiple q len).2.2.2
  | QueueOp.peekOp => q
  | QueueOp.clearOp => queue_clear q

/-- The state after a finite sequence of operations. -/
def applyOps [Inhabited α] (q : Queue α N) : List (QueueOp α) → Queue α N
  | [] => q
  | op :: ops => applyOps (applyOp q op) ops

/-- Every single operation preserves the reachable-state invariant. -/
theorem applyOp_Inv [Inhabited α] {q : Queue α N} (h : q.Inv) (op : QueueOp α) :
    (applyOp q op).Inv := by
  have hN : 0 < N := h.pos
  obtain ⟨hbuf, hcnt, hri, hwi, hrel⟩ := h
  cases op with
  | initializeOp =>
    exact ⟨hbuf, Nat.zero_le N, hN, hN, by show (0 : Nat) = (0 + 0) % N; simp⟩
  | pushOp v =>
    by_cases hful : q.count < N
    · exact (push_notFull v ⟨hbuf, hcnt, hri, hwi, hrel⟩ hful).2.1
    · have he : q.count = N := by omega
      exact (push_full v ⟨hbuf, hcnt, hri, hwi, hrel⟩ he).2.1
  | pushNoOverwriteOp v =>
    by_cases hful : q.count < N
    · show (queue_push_no_overwrite q v).2.Inv
      rw [push_no_overwrite_notFull v hful]
      exact (push_notFull v ⟨hbuf, hcnt, hri, hwi, hrel⟩ hful).2.1
    · show (queue_push_no_overwrite q v).2.Inv
      unfold queue_push_no_overwrite
      rw [if_pos (by omega)]
      exact ⟨hbuf, hcnt, hri, hwi, hrel⟩
  | pullOp =>
    by_cases hc : q.count = 0
    · show (queue_pull q).2.2.Inv
      unfold queue_pull
      rw [if_pos hc]
      exact ⟨hbuf, hcnt, hri, hwi, hrel⟩
    · obtain ⟨hpull, _, _, hI⟩ := pull_spec ⟨hbuf, hcnt, hri, hwi, hrel⟩ (by omega)
      show (queue_pull q).2.2.Inv
      rw [hpull]
      exact hI
  | pullMultipleOp len =>
    show (queue_pull_multiple q len).2.2.2.Inv
    unfold queue_pull_multiple
    by_cases hlen : len = 0
    · rw [if_pos hlen]
      exact ⟨hbuf, hcnt, hri, hwi, hrel⟩
    · rw [if_neg hlen]
      by_cases hc : q.count = 0
      · rw [if_pos hc]
        exact ⟨hbuf, hcnt, hri, hwi, hrel⟩
      · rw [if_neg hc]
        have hk : (if len > q.count then q.count else len) ≤ q.count := by
          by_cases hgt : len > q.count
          · rw [if_pos hgt]
          · rw [if_neg hgt]
            omega
        exact (pullMultipleLoop_spec _ q ⟨hbuf, hcnt, hri, hwi, hrel⟩ hk).2.2.1
  | peekOp =>
    exact ⟨hbuf, hcnt, hri, hwi, hrel⟩
  | clearOp =>
    exact ⟨hbuf, Nat.zero_le N, hN, hN, by show (0 : Nat) = (0 + 0) % N; simp⟩

/-- Sequences of operations preserve the invariant. -/
theorem applyOps_Inv [Inhabited α] :
    ∀ (ops : List (QueueOp α)) (q : Queue α N), q.Inv → (applyOps q ops).Inv
  | [], _, h => h
  | op :: ops, q, h => applyOps_Inv ops (applyOp q op) (applyOp_Inv h op)

/- ==================== STRING QUEUE (DECLARE_STRING_QUEUE) ==================== -/

/-- Reading a char array as a C string: the bytes before the first 0
terminator. Bytes are modelled as `Nat`. -/
def cstr (l : List Nat) : List Nat := l.takeWhile (fun c => decide (c ≠ 0))

/-- The `n` bytes `strncpy(dst, src, n)` writes, where `src` holds the
null-free characters of the source C string: the characters of `src` while
they last, then 0 padding. -/
def strncpyBytes (src : List Nat) (n : Nat) : List Nat :=
  (List.range n).map (fun i => src.getD i 0)

/-- Embeds `queue_push_with_string_support_STRING_SIZE_QUEUE_SIZE` (void function):
`if(!queue || !str) return;` — a silent no-op on a NULL queue or NULL text;
otherwise it builds the S-byte element by `strncpy(item.data, str, S-1);
item.data[S-1] = 0;` and delegates to `queue_push`. The element type of the
underlying queue is the S-byte char array `str_S`, modelled as `List Nat`. -/
def queue_push_with_string_support (S : Nat) (queue : Option (Queue (List Nat) N))
    (str : Option (List Nat)) : Option (Queue (List Nat) N) :=
  match queue, str with
  | none, _ => none
  | some q, none => some q
  | some q, some text =>
    let item := strncpyBytes text (S - 1) ++ [0]
    some (queue_push q item).2

/-- Embeds `queue_pull_with_string_support_STRING_SIZE_QUEUE_SIZE` on a valid queue
and output buffer: returns 0 leaving the output untouched when
`max_len == 0` (the NULL-argument guard); otherwise pulls one element and,
when the pull succeeds, writes `strncpy(output, item.data, max_len - 1);
output[max_len - 1] = 0;` and returns 1; on a failed pull returns 0 with the
output untouched. The `Option (List Nat)` component is the written
`max_len`-byte front part of the output buffer (`none` = untouched); the
model reads `item.data` up to its terminator, which every element created by
the string push helper has. -/
def queue_pull_with_string_support (q : Queue (List Nat) N) (max_len : Nat) :
    Nat × Option (List Nat) × Queue (List Nat) N :=
  if max_len = 0 then (0, none, q)
  else if (queue_pull q).1 = QueueStatus.ok then
    (1, some (strncpyBytes (cstr ((queue_pull q).2.1.getD [])) (max_len - 1) ++ [0]),
      (queue_pull q).2.2)
  else
    (0, none, (queue_pull q).2.2)

theorem strncpyBytes_nil (n : Nat) : strncpyBytes [] n = List.replicate n 0 := by
  unfold strncpyBytes
  simp [List.getD_nil, List.map_const']

theorem strncpyBytes_cons (a : Nat) (s : List Nat) (n : Nat) :
    strncpyBytes (a :: s) (n + 1) = a :: strncpyBytes s n := by
  unfold strncpyBytes
  rw [List.range_succ_eq_map, List.map_cons, List.map_map]
  rfl

/-- Reading back a strncpy-built, explicitly terminated char array as a C
string recovers the first `n` characters of the (null-free) source. -/
theorem cstr_strncpy :
    ∀ (s : List Nat) (n : Nat), (∀ c ∈ s, c ≠ 0) →
      cstr (strncpyBytes s n ++ [0]) = s.take n
  | [], n, _ => by
    rw [strncpyBytes_nil]
    cases n with
    | zero => simp [cstr]
    | succ m => simp [cstr, List.replicate_succ]
  | a :: s, 0, _ => by simp [cstr, strncpyBytes]
  | a :: s, n + 1, h => by
    have ha : a ≠ 0 := h a (by simp)
    rw [strncpyBytes_cons, List.take_succ_cons]
    show cstr (a :: (strncpyBytes s n ++ [0])) = a :: s.take n
    rw [cstr, List.takeWhile_cons, if_pos (by simpa using ha)]
    show a :: cstr (strncpyBytes s n ++ [0]) = a :: List.take n s
    rw [cstr_strncpy s n (fun c hc => h c (by simp [hc]))]

/-- Every character of a C-string read is a non-terminator. -/
theorem cstr_nonzero (l : List Nat) : ∀ c ∈ cstr l, c ≠ 0 := by
  intro c hc
  have := List.mem_takeWhile_imp hc
  simpa using this

/-- The FIFO contents have exactly `count` elements. -/
theorem toList_length [Inhabited α] (q : Queue α N) : q.toList.length = q.count := by
  simp [Queue.toList]

/- ==================== CLAIM THEOREMS ==================== -/

/-- C1 (counterexample to the claim as stated): on a valid 4-slot queue
holding one element, `queue_pull_multiple` with `length == 0` returns
ERROR_NULL_POINTER — not ERROR_INVALID_LENGTH as the claim says. The
`length == 0` case is folded into the C guard
`if(!self || !data_out || length == 0) return ..ERROR_NULL_POINTER;`,
and ERROR_INVALID_LENGTH is declared but never returned. -/
theorem claim_C1_counterexample :
    (queue_pull_multiple (⟨[5, 0, 0, 0], 1, 0, 1⟩ : Queue Nat 4) 0).1 ≠
      QueueStatus.errorInvalidLength ∧
    (queue_pull_multiple (⟨[5, 0, 0, 0], 1, 0, 1⟩ : Queue Nat 4) 0).1 =
      QueueStatus.errorNullPointer := by
  constructor
  · decide
  · decide

/-- C1 (amended): for every queue state, `queue_pull_multiple` with
`max_count == 0` fails with the NullPointer status (the code routes the
zero-length check through its NULL-argument guard, ERROR_INVALID_LENGTH is
never produced); and on a valid handle with `count == 0` and
`max_count > 0` it fails with Empty, `actual_count == 0` and no mutation. -/
theorem claim_C1_amended [Inhabited α] (q : Queue α N) (len : Nat) :
    (queue_pull_multiple q 0).1 = QueueStatus.errorNullPointer ∧
    (q.count = 0 → 0 < len →
      queue_pull_multiple q len = (QueueStatus.errorEmpty, [], 0, q)) := by
  constructor
  · rfl
  · intro hc hlen
    unfold queue_pull_multiple
    rw [if_neg (by omega), if_pos hc]

/-- Witness for C1 (amended) at a concrete input: a 4-slot empty queue. -/
theorem claim_C1_amended_witness :
    (queue_pull_multiple (⟨[0, 0, 0, 0], 0, 0, 0⟩ : Queue Nat 4) 0).1 =
      QueueStatus.errorNullPointer ∧
    queue_pull_multiple (⟨[0, 0, 0, 0], 0, 0, 0⟩ : Queue Nat 4) 3 =
      (QueueStatus.errorEmpty, [], 0, ⟨[0, 0, 0, 0], 0, 0, 0⟩) := by
  have h := claim_C1_amended (⟨[0, 0, 0, 0], 0, 0, 0⟩ : Queue Nat 4) 3
  exact ⟨h.1, h.2 rfl (by decide)⟩

/-- C4: on a full queue (`count == N`), `queue_push_no_overwrite` returns
ERROR_FULL with the entire state (storage, write_index, read_index, count)
unchanged, and a subsequent `queue_pull` still yields the original oldest
element, the slot at `read_index`. -/
theorem claim_C4 [Inhabited α] {q : Queue α N} (v : α) (hfull : q.count = N)
    (hN : 0 < N) :
    (queue_push_no_overwrite q v).1 = QueueStatus.errorFull ∧
    (queue_push_no_overwrite q v).2 = q ∧
    (queue_pull (queue_push_no_overwrite q v).2).2.1 =
      some (q.buffer.getD q.read_index default) := by
  have heq : queue_push_no_overwrite q v = (QueueStatus.errorFull, q) := by
    unfold queue_push_no_overwrite
    rw [if_pos (Nat.le_of_eq hfull.symm)]
  refine ⟨by rw [heq], by rw [heq], ?_⟩
  rw [heq]
  show (queue_pull q).2.1 = some (q.buffer.getD q.read_index default)
  unfold queue_pull
  rw [if_neg (by omega)]

/-- Witness for C4 at a concrete input: a full 2-slot queue holding 7, 8. -/
theorem claim_C4_witness :
    (queue_push_no_overwrite (⟨[7, 8], 0, 0, 2⟩ : Queue Nat 2) 9).1 =
      QueueStatus.errorFull ∧
    (queue_push_no_overwrite (⟨[7, 8], 0, 0, 2⟩ : Queue Nat 2) 9).2 =
      ⟨[7, 8], 0, 0, 2⟩ ∧
    (queue_pull (queue_push_no_overwrite (⟨[7, 8], 0, 0, 2⟩ : Queue Nat 2) 9).2).2.1 =
      some 7 := by
  have h := claim_C4 (q := (⟨[7, 8], 0, 0, 2⟩ : Queue Nat 2)) 9 rfl (by decide)
  exact ⟨h.1, h.2.1, h.2.2⟩

/-- C7: `queue_is_empty` is true exactly when `count == 0` and treats a NULL
handle as empty; `queue_is_full` is false on a NULL handle and, on states
respecting the capacity bound, true exactly when `count == N`;
`queue_available_space` is `N - count`, and 0 on a NULL handle. -/
theorem claim_C7 :
    queue_is_empty (none : Option (Queue α N)) = true ∧
    (∀ q : Queue α N, queue_is_empty (some q) = true ↔ q.count = 0) ∧
    queue_is_full (none : Option (Queue α N)) = false ∧
    (∀ q : Queue α N, q.count ≤ N → (queue_is_full (some q) = true ↔ q.count = N)) ∧
    queue_available_space (none : Option (Queue α N)) = 0 ∧
    (∀ q : Queue α N, queue_available_space (some q) = N - q.count) := by
  refine ⟨rfl, ?_, rfl, ?_, rfl, fun q => rfl⟩
  · intro q
    simp [queue_is_empty]
  · intro q hle
    simp only [queue_is_full, decide_eq_true_eq]
    omega

/-- Witness for C7 at a concrete input: a full 2-slot queue. -/
theorem claim_C7_witness :
    (queue_is_full (some (⟨[1, 2], 0, 0, 2⟩ : Queue Nat 2)) = true ↔
      (⟨[1, 2], 0, 0, 2⟩ : Queue Nat 2).count = 2) ∧
    queue_is_empty (some (⟨[1, 2], 0, 0, 2⟩ : Queue Nat 2)) = false := by
  constructor
  · exact (claim_C7 (α := Nat) (N := 2)).2.2.2.1 ⟨[1, 2], 0, 0, 2⟩ (by decide)
  · decide

/-- C8: on a valid handle, `queue_peek` fails with ERROR_EMPTY when
`count == 0`; when `count > 0` it returns OK with a copy of the slot at
`read_index`, which is the head of the FIFO contents. The C function takes
`const self` and writes only through the out-pointer, so the embedded
function has no state component at all — storage, indices and count are
unchanged by construction. -/
theorem claim_C8 [Inhabited α] {q : Queue α N} (h : q.Inv) :
    (q.count = 0 → queue_peek q = (QueueStatus.errorEmpty, none)) ∧
    (0 < q.count →
      queue_peek q = (QueueStatus.ok, some (q.buffer.getD q.read_index default)) ∧
      (queue_peek q).2 = q.toList.head?) := by
  constructor
  · intro hc
    unfold queue_peek
    rw [if_pos hc]
  · intro hc
    have hpk : queue_peek q = (QueueStatus.ok, some (q.buffer.getD q.read_index default)) := by
      unfold queue_peek
      rw [if_neg (by omega)]
    refine ⟨hpk, ?_⟩
    rw [hpk, toList_cons q h.2.2.1 hc]
    rfl

/-- Witness for C8 at a concrete input: a 2-slot queue holding the single
element 9 at read_index 1. -/
theorem claim_C8_witness :
    queue_peek (⟨[0, 9], 0, 1, 1⟩ : Queue Nat 2) = (QueueStatus.ok, some 9) ∧
    (queue_peek (⟨[0, 9], 0, 1, 1⟩ : Queue Nat 2)).2 =
      (⟨[0, 9], 0, 1, 1⟩ : Queue Nat 2).toList.head? := by
  exact (claim_C8 (q := (⟨[0, 9], 0, 1, 1⟩ : Queue Nat 2)) (by decide)).2 (by decide)

/-- C10: `queue_push_with_string_support` begins with
`if(!queue || !str) return;` — with a NULL text pointer it returns without
signalling anything (void return) and the queue state (storage, indices,
count) is entirely unchanged; with a NULL queue handle it likewise does
nothing. -/
theorem claim_C10 (S : Nat) (q : Queue (List Nat) N) (t : Option (List Nat)) :
    queue_push_with_string_support S (some q) none = some q ∧
    queue_push_with_string_support S (none : Option (Queue (List Nat) N)) t = none :=
  ⟨rfl, rfl⟩

/-- C3 (FIFO order): pushing `ps` (with `ps.length ≤ N`) into an initially
empty queue makes the FIFO contents exactly `ps`, and `ps.length` subsequent
pulls all succeed and return `p1..pk` in exactly that order (`drain` collects
pulled values while the status is OK). -/
theorem claim_C3 [Inhabited α] {q : Queue α N} (ps : List α) (h : q.Inv)
    (hempty : q.count = 0) (hlen : ps.length ≤ N) :
    (pushAll q ps).toList = ps ∧ drain (pushAll q ps) ps.length = ps := by
  have hq0 : q.toList = [] := by simp [Queue.toList, hempty]
  obtain ⟨hI, hto, hcnt⟩ := pushAll_spec ps q h (by omega)
  have hto' : (pushAll q ps).toList = ps := by rw [hto, hq0, List.nil_append]
  refine ⟨hto', ?_⟩
  rw [drain_eq_toList ps.length _ hI (by omega), hto']

/-- Witness for C3: pushing [4, 5, 6] into an empty 4-slot queue and pulling
three times yields 4, 5, 6 in order. -/
theorem claim_C3_witness :
    (pushAll (⟨[0, 0, 0, 0], 0, 0, 0⟩ : Queue Nat 4) [4, 5, 6]).toList = [4, 5, 6] ∧
    drain (pushAll (⟨[0, 0, 0, 0], 0, 0, 0⟩ : Queue Nat 4) [4, 5, 6]) 3 = [4, 5, 6] :=
  claim_C3 (q := (⟨[0, 0, 0, 0], 0, 0, 0⟩ : Queue Nat 4)) [4, 5, 6] (by decide) rfl
    (by decide)

/-- C6: on a valid handle with `0 < count` and a requested `max_count`
exceeding `count`, `queue_pull_multiple` succeeds (status OK, not an error)
with `actual_count == count`, emits exactly the live elements in FIFO order,
and leaves the queue empty. -/
theorem claim_C6 [Inhabited α] {q : Queue α N} (h : q.Inv) (hc : 0 < q.count)
    (len : Nat) (hlen : q.count < len) :
    (queue_pull_multiple q len).1 = QueueStatus.ok ∧
    (queue_pull_multiple q len).2.2.1 = q.count ∧
    (queue_pull_multiple q len).2.1 = q.toList ∧
    (queue_pull_multiple q len).2.2.2.count = 0 ∧
    (queue_pull_multiple q len).2.2.2.toList = [] := by
  have hres : queue_pull_multiple q len =
      (QueueStatus.ok, (pullMultipleLoop q q.count).1, q.count,
        (pullMultipleLoop q q.count).2) := by
    unfold queue_pull_multiple
    rw [if_neg (by omega), if_neg (by omega)]
    rw [if_pos hlen]
  obtain ⟨l1, l2, l3, l4⟩ := pullMultipleLoop_spec q.count q h (Nat.le_refl _)
  rw [hres]
  refine ⟨rfl, rfl, ?_, ?_, ?_⟩
  · rw [l1, ← toList_length q, List.take_length]
  · rw [l4, Nat.sub_self]
  · rw [l2, ← toList_length q, List.drop_length]

/-- Witness for C6: a 4-slot queue holding 5, 6; requesting 10 drains both. -/
theorem claim_C6_witness :
    (queue_pull_multiple (⟨[5, 6, 0, 0], 2, 0, 2⟩ : Queue Nat 4) 10).1 =
      QueueStatus.ok ∧
    (queue_pull_multiple (⟨[5, 6, 0, 0], 2, 0, 2⟩ : Queue Nat 4) 10).2.2.1 = 2 ∧
    (queue_pull_multiple (⟨[5, 6, 0, 0], 2, 0, 2⟩ : Queue Nat 4) 10).2.1 =
      (⟨[5, 6, 0, 0], 2, 0, 2⟩ : Queue Nat 4).toList ∧
    (queue_pull_multiple (⟨[5, 6, 0, 0], 2, 0, 2⟩ : Queue Nat 4) 10).2.2.2.count = 0 := by
  have h := claim_C6 (q := (⟨[5, 6, 0, 0], 2, 0, 2⟩ : Queue Nat 4)) (by decide)
    (by decide) 10 (by decide)
  exact ⟨h.1, h.2.1, h.2.2.1, h.2.2.2.1⟩

/-- C5 (invariant): starting from any `N`-slot storage (`N ≥ 1`) brought up
by `queue_initialize`, after any finite sequence of initialize, push,
push_no_overwrite, pull, pull_multiple, peek and clear operations, the count
stays within `[0, N]` (counts are naturals, so `0 ≤ count` is inherent) and
both indices stay valid slot numbers in `[0, N)`. -/
theorem claim_C5 [Inhabited α] (q₀ : Queue α N) (hN : 0 < N)
    (hbuf : q₀.buffer.length = N) (ops : List (QueueOp α)) :
    (applyOps (queue_initialize_impl q₀).2 ops).count ≤ N ∧
    (applyOps (queue_initialize_impl q₀).2 ops).read_index < N ∧
    (applyOps (queue_initialize_impl q₀).2 ops).write_index < N := by
  have hInit : (queue_initialize_impl q₀).2.Inv :=
    ⟨hbuf, Nat.zero_le N, hN, hN, by show (0 : Nat) = (0 + 0) % N; simp⟩
  have h := applyOps_Inv ops _ hInit
  exact ⟨h.2.1, h.2.2.1, h.2.2.2.1⟩

/-- Witness for C5: a concrete 6-operation run on a 2-slot queue. -/
theorem claim_C5_witness :
    (applyOps (queue_initialize_impl (⟨[9, 9], 1, 1, 2⟩ : Queue Nat 2)).2
      [QueueOp.pushOp 3, QueueOp.pushOp 4, QueueOp.pushOp 5, QueueOp.pullOp,
        QueueOp.pullMultipleOp 7, QueueOp.clearOp]).count ≤ 2 ∧
    (applyOps (queue_initialize_impl (⟨[9, 9], 1, 1, 2⟩ : Queue Nat 2)).2
      [QueueOp.pushOp 3, QueueOp.pushOp 4, QueueOp.pushOp 5, QueueOp.pullOp,
        QueueOp.pullMultipleOp 7, QueueOp.clearOp]).read_index < 2 ∧
    (applyOps (queue_initialize_impl (⟨[9, 9], 1, 1, 2⟩ : Queue Nat 2)).2
      [QueueOp.pushOp 3, QueueOp.pushOp 4, QueueOp.pushOp 5, QueueOp.pullOp,
        QueueOp.pullMultipleOp 7, QueueOp.clearOp]).write_index < 2 :=
  claim_C5 (⟨[9, 9], 1, 1, 2⟩ : Queue Nat 2) (by decide) (by decide)
    [QueueOp.pushOp 3, QueueOp.pushOp 4, QueueOp.pushOp 5, QueueOp.pullOp,
      QueueOp.pullMultipleOp 7, QueueOp.clearOp]

/-- C2 (overwrite policy): pushing `N + 1` values `v1..v(N+1)` via
`queue_push` into an initially empty queue of capacity `N ≥ 1` leaves
exactly `v2..v(N+1)` as the FIFO contents, in that order; `N` subsequent
pulls return exactly those values (so `v1` was discarded by the overwrite
and is not retrievable), and the count sits at `N`. -/
theorem claim_C2 [Inhabited α] {q : Queue α N} (vs : List α) (h : q.Inv)
    (hempty : q.count = 0) (hN : 1 ≤ N) (hlen : vs.length = N + 1) :
    (pushAll q vs).toList = vs.tail ∧
    drain (pushAll q vs) N = vs.tail ∧
    (pushAll q vs).count = N := by
  have hne : vs ≠ [] := by
    intro hh
    rw [hh] at hlen
    simp at hlen
  have hq0 : q.toList = [] := by simp [Queue.toList, hempty]
  have hdl : vs.dropLast.length = N := by
    rw [List.length_dropLast, hlen, Nat.add_sub_cancel]
  obtain ⟨hI1, hto1, hcnt1⟩ := pushAll_spec vs.dropLast q h (by omega)
  have hfull : (pushAll q vs.dropLast).count = N := by
    rw [hcnt1, hempty, hdl, Nat.zero_add]
  have hdec : pushAll q vs = (queue_push (pushAll q vs.dropLast) (vs.getLast hne)).2 := by
    conv_lhs => rw [← List.dropLast_append_getLast hne]
    rw [pushAll_append]
    rfl
  obtain ⟨_, hI2, hto2, hcnt2⟩ := push_full (vs.getLast hne) hI1 hfull
  have htolist : (pushAll q vs).toList = vs.tail := by
    rw [hdec, hto2, hto1, hq0, List.nil_append]
    cases vs with
    | nil => exact absurd rfl hne
    | cons v0 rest =>
      have hrne : rest ≠ [] := by
        intro hh
        rw [hh] at hlen
        simp at hlen
        omega
      have hdlc : (v0 :: rest).dropLast = v0 :: rest.dropLast := by
        cases rest with
        | nil => exact absurd rfl hrne
        | cons b m => rfl
      rw [hdlc, List.tail_cons, List.tail_cons, List.getLast_cons hrne,
        List.dropLast_append_getLast hrne]
  refine ⟨htolist, ?_, by rw [hdec, hcnt2]⟩
  rw [drain_eq_toList N _ (by rw [hdec]; exact hI2) (by rw [hdec, hcnt2]), htolist]

/-- Witness for C2: the spec's concrete scenario — capacity 4, push 0xAA,
0xBB, 0xCC, 0xDD, then 0xEE; four pulls yield 0xBB, 0xCC, 0xDD, 0xEE. -/
theorem claim_C2_witness :
    (pushAll (⟨[0, 0, 0, 0], 0, 0, 0⟩ : Queue Nat 4)
      [0xAA, 0xBB, 0xCC, 0xDD, 0xEE]).toList = [0xBB, 0xCC, 0xDD, 0xEE] ∧
    drain (pushAll (⟨[0, 0, 0, 0], 0, 0, 0⟩ : Queue Nat 4)
      [0xAA, 0xBB, 0xCC, 0xDD, 0xEE]) 4 = [0xBB, 0xCC, 0xDD, 0xEE] ∧
    (pushAll (⟨[0, 0, 0, 0], 0, 0, 0⟩ : Queue Nat 4)
      [0xAA, 0xBB, 0xCC, 0xDD, 0xEE]).count = 4 :=
  claim_C2 (q := (⟨[0, 0, 0, 0], 0, 0, 0⟩ : Queue Nat 4))
    [0xAA, 0xBB, 0xCC, 0xDD, 0xEE] (by decide) rfl (by decide) (by decide)

/-- On a nonempty invariant state with `max_len > 0`, the string pull helper
returns 1 and writes the strncpy-truncated, explicitly terminated copy of
the oldest element into the output buffer. -/
theorem pull_with_string_support_spec {q : Queue (List Nat) N} (max_len : Nat)
    (h : q.Inv) (hc : 0 < q.count) (hml : 0 < max_len) :
    queue_pull_with_string_support q max_len =
      (1, some (strncpyBytes (cstr (q.buffer.getD q.read_index default))
        (max_len - 1) ++ [0]), q.advance) := by
  obtain ⟨hpull, _, _, _⟩ := pull_spec h hc
  unfold queue_pull_with_string_support
  rw [if_neg (by omega), hpull]
  simp

/-- C9 (string truncation), in two parts. Part 1: pushing a null-free text
longer than `S - 1` characters through the `StringElement<S>` helper into an
empty queue and pulling it back into an output buffer of capacity
`max_len ≥ S` succeeds and yields (read as a C string, i.e. up to the
terminator the helper wrote) exactly the first `S - 1` characters. Part 2:
pulling any stored element whose C-string content is at least `max_len`
characters into an output buffer of capacity `max_len > 0` yields exactly
its first `max_len - 1` characters plus the terminator. -/
theorem claim_C9 :
    (∀ (S max_len : Nat) (text : List Nat) (q : Queue (List Nat) N),
      q.Inv → q.count = 0 → (∀ c ∈ text, c ≠ 0) → S - 1 < text.length →
      1 ≤ S → S ≤ max_len →
      ∃ q1, queue_push_with_string_support S (some q) (some text) = some q1 ∧
        (queue_pull_with_string_support q1 max_len).1 = 1 ∧
        ∃ out, (queue_pull_with_string_support q1 max_len).2.1 = some out ∧
          cstr out = text.take (S - 1)) ∧
    (∀ (max_len : Nat) (q : Queue (List Nat) N),
      q.Inv → 0 < q.count → 0 < max_len →
      max_len ≤ (cstr (q.buffer.getD q.read_index default)).length →
      (queue_pull_with_string_support q max_len).1 = 1 ∧
      ∃ out, (queue_pull_with_string_support q max_len).2.1 = some out ∧
        cstr out = (cstr (q.buffer.getD q.read_index default)).take (max_len - 1)) := by
  constructor
  · intro S max_len text q h hempty htext hlong hS hml
    have hN : 0 < N := h.pos
    obtain ⟨_, hI1, hto1, hcnt1⟩ :=
      push_notFull (strncpyBytes text (S - 1) ++ [0]) h (by omega)
    refine ⟨(queue_push q (strncpyBytes text (S - 1) ++ [0])).2, rfl, ?_, ?_⟩
    · rw [pull_with_string_support_spec max_len hI1 (by omega) (by omega)]
    · have hq0 : q.toList = [] := by simp [Queue.toList, hempty]
      have htl : (queue_push q (strncpyBytes text (S - 1) ++ [0])).2.toList =
          [strncpyBytes text (S - 1) ++ [0]] := by
        rw [hto1, hq0, List.nil_append]
      obtain ⟨_, hcons, _, _⟩ := pull_spec hI1 (by omega)
      rw [htl] at hcons
      have hval : (queue_push q (strncpyBytes text (S - 1) ++ [0])).2.buffer.getD
          (queue_push q (strncpyBytes text (S - 1) ++ [0])).2.read_index default =
          strncpyBytes text (S - 1) ++ [0] := by
        have := List.cons_eq_cons.mp hcons
        exact this.1.symm
      rw [pull_with_string_support_spec max_len hI1 (by omega) (by omega)]
      refine ⟨_, rfl, ?_⟩
      rw [hval, cstr_strncpy text (S - 1) htext]
      rw [cstr_strncpy (text.take (S - 1)) (max_len - 1)
        (fun c hc => htext c (List.take_subset _ _ hc))]
      rw [List.take_take]
      congr 1
      omega
  · intro max_len q h hc hml hlen
    rw [pull_with_string_support_spec max_len h hc hml]
    exact ⟨rfl, _, rfl,
      cstr_strncpy (cstr (q.buffer.getD q.read_index default)) (max_len - 1)
        (cstr_nonzero _)⟩

/-- Witness for C9: part 1 with S = 3, text "ABCD" (bytes 65..68), capacity
2, output capacity 5 — the C string read back is "AB"; part 2 with a 1-slot
queue holding "AB" (bytes [65, 66, 0, 0]) and output capacity 2 — the C
string read back is "A". -/
theorem claim_C9_witness :
    (∃ q1, queue_push_with_string_support 3
        (some (⟨[[], []], 0, 0, 0⟩ : Queue (List Nat) 2)) (some [65, 66, 67, 68]) =
          some q1 ∧
      (queue_pull_with_string_support q1 5).1 = 1 ∧
      ∃ out, (queue_pull_with_string_support q1 5).2.1 = some out ∧
        cstr out = [65, 66, 67, 68].take 2) ∧
    ((queue_pull_with_string_support (⟨[[65, 66, 0, 0]], 0, 0, 1⟩ : Queue (List Nat) 1)
        2).1 = 1 ∧
      ∃ out, (queue_pull_with_string_support
          (⟨[[65, 66, 0, 0]], 0, 0, 1⟩ : Queue (List Nat) 1) 2).2.1 = some out ∧
        cstr out = (cstr ((⟨[[65, 66, 0, 0]], 0, 0, 1⟩ :
          Queue (List Nat) 1).buffer.getD 0 default)).take 1) := by
  constructor
  · exact (claim_C9 (N := 2)).1 3 5 [65, 66, 67, 68] ⟨[[], []], 0, 0, 0⟩
      (by decide) rfl (by decide) (by decide) (by decide) (by decide)
  · exact (claim_C9 (N := 1)).2 2 ⟨[[65, 66, 0, 0]], 0, 0, 1⟩
      (by decide) (by decide) (by decide) (by decide)

end HOLQueue
